import Mathlib

/-!
Verification of the schema-migration engine of the corporate-site API
(`internal/database/migrations/migration.go`, `registry.go`, the step
definitions under `versions/`, and the CLI driver `cmd/migrate/main.go`).

The Go code is shallowly embedded: the database is explicit state
(`DBState`), a migration step's forward/backward closure is a function
from store state to `Except String` (a failed action means the enclosing
transaction rolls back, so the caller keeps the pre-transaction state),
and `time.Now()` is a monotone counter `now` incremented each time a
ledger row takes its timestamp.  GORM's autoincrement primary key is the
counter `nextId`; the `unique` column constraint on `version` is checked
by `insertRecord`, and the one on `users.email` by `createUser`.
-/

namespace MigrationEngine

/-- A row of the `migrations` ledger table (struct `Migration` in
`migration.go`): autoincrement primary key, unique version, description,
and the timestamp taken when the row was written. -/
structure Migration where
  id : Nat
  version : String
  description : String
  executedAt : Nat
deriving Repr, DecidableEq

/-- A registered migration step (struct `MigrationStep` in
`versions/001_create_users_table.go`): version, description, and the
forward/backward closures acting on the store inside a transaction. -/
structure MigrationStep (σ : Type) where
  Version : String
  Description : String
  Up : σ → Except String σ
  Down : σ → Except String σ

/-- The database state seen by the engine: whether the ledger's backing
table exists, the ledger rows in insertion (primary-key) order, the next
autoincrement id, the monotone clock, and the rest of the store (the
schema/data the forward actions act on), kept abstract as `σ`. -/
structure DBState (σ : Type) where
  ledgerExists : Bool
  ledger : List Migration
  nextId : Nat
  now : Nat
  store : σ
deriving DecidableEq

/-- The `Migrator` (struct in `migration.go`): it holds the registered
steps in registration order. -/
structure Migrator (σ : Type) where
  migrations : List (MigrationStep σ)

/-- Outcome of one engine operation: the returned error (if any), the
database state afterwards, and the trace of versions whose
forward/backward action was invoked (used to state "runs exactly once"
and "no further step is attempted"). -/
structure RunResult (σ : Type) where
  err : Option String
  state : DBState σ
  trace : List String
deriving DecidableEq

/-- Registers a step (`Migrator.Register`): appends to the list. -/
def Migrator.Register (m : Migrator σ) (step : MigrationStep σ) : Migrator σ :=
  { m with migrations := m.migrations ++ [step] }

/-- Writing a ledger row (`tx.Create(&newMigration)` in `Up`): the
`unique` constraint on `version` rejects a duplicate, otherwise the row
is appended with the next primary key and the current timestamp. -/
def insertRecord (st : DBState σ) (version description : String) :
    Except String (DBState σ) :=
  if st.ledger.any (fun r => r.version == version) then
    Except.error ("failed to record migration " ++ version)
  else
    Except.ok { st with
      ledger := st.ledger ++ [⟨st.nextId, version, description, st.now⟩],
      nextId := st.nextId + 1,
      now := st.now + 1 }

/-- One iteration of `Up`'s loop body: the transaction runs the step's
forward action, then records the executed migration; failure of either
rolls the whole transaction back (the caller keeps its state). -/
def runStep (step : MigrationStep σ) (st : DBState σ) : Except String (DBState σ) :=
  match step.Up st.store with
  | Except.error e =>
      Except.error ("failed to execute migration " ++ step.Version ++ ": " ++ e)
  | Except.ok s => insertRecord { st with store := s } step.Version step.Description

/-- The loop of `Migrator.Up` over the registered steps, with the map of
already-executed versions computed once before the loop (as in the Go
code, the map is not refreshed between iterations).  A step whose
version is in the map is skipped; otherwise its transaction runs, and a
failure aborts the whole call immediately. -/
def upLoop (executedMap : List String) :
    List (MigrationStep σ) → DBState σ → RunResult σ
  | [], st => ⟨none, st, []⟩
  | step :: rest, st =>
    if executedMap.contains step.Version then
      upLoop executedMap rest st
    else
      match runStep step st with
      | Except.error e =>
          ⟨some ("failed to run migration " ++ step.Version ++ ": " ++ e), st,
            [step.Version]⟩
      | Except.ok st1 =>
          let r := upLoop executedMap rest st1
          ⟨r.err, r.state, step.Version :: r.trace⟩

/-- `Migrator.Up`: ensure the ledger table exists (`Initialize` /
`AutoMigrate`, create-if-not-exists), read the executed versions, then
run all pending steps in registration order. -/
def Migrator.Up (m : Migrator σ) (st : DBState σ) : RunResult σ :=
  upLoop (st.ledger.map (fun r => r.version)) m.migrations
    { st with ledgerExists := true }

/-- The ledger row GORM's `Order("executed_at desc").First` returns: the
row with the maximal `executedAt`; on equal timestamps the smallest
primary key wins, which for a ledger kept in insertion order is the
earliest row in the list. -/
def latestMigration : List Migration → Option Migration
  | [] => none
  | r :: rs =>
      some (rs.foldl (fun acc x => if acc.executedAt < x.executedAt then x else acc) r)

/-- `Migrator.Down`: fetch the most recent ledger row (none → successful
no-op), find the registered step with that version (none → orphaned row,
error), then in one transaction run the backward action and delete the
row by primary key; a failing action rolls the transaction back. -/
def Migrator.Down (m : Migrator σ) (st : DBState σ) : RunResult σ :=
  match latestMigration st.ledger with
  | none => ⟨none, st, []⟩
  | some last =>
    match m.migrations.find? (fun s => s.Version == last.version) with
    | none =>
        ⟨some ("migration step not found for version: " ++ last.version), st, []⟩
    | some step =>
      match step.Down st.store with
      | Except.error e =>
          ⟨some ("failed to roll back migration " ++ step.Version ++ ": " ++
            ("failed to execute rollback for migration " ++ step.Version ++ ": " ++ e)),
            st, [last.version]⟩
      | Except.ok s =>
          ⟨none,
            { st with
              store := s
              ledger := st.ledger.eraseP (fun r => r.id == last.id) },
            [last.version]⟩

/-- Reported state of one registered step in `Status`'s table. -/
inductive StepStatus where
  | Pending
  | Executed (executedAt : Nat)
deriving Repr, DecidableEq

/-- One line of `Status`'s report: the step's version and description
and whether (and when) it was executed. -/
structure StatusEntry where
  version : String
  description : String
  status : StepStatus
deriving Repr, DecidableEq

/-- Outcome of `Migrator.Status`: error, state afterwards, and the
per-step report printed by the Go code. -/
structure StatusResult (σ : Type) where
  err : Option String
  state : DBState σ
  report : List StatusEntry

/-- The report `Status` produces: one entry per registered step, in
registration order; a step is `Executed` at the recorded timestamp when
a ledger row carries its version (the ledger's `unique` version column
makes that row unique), `Pending` otherwise. -/
def statusReport (m : Migrator σ) (ledger : List Migration) : List StatusEntry :=
  m.migrations.map (fun s =>
    match ledger.find? (fun r => r.version == s.Version) with
    | some r => ⟨s.Version, s.Description, StepStatus.Executed r.executedAt⟩
    | none => ⟨s.Version, s.Description, StepStatus.Pending⟩)

/-- `Migrator.Status`: a read of the ledger and the report; no write. -/
def Migrator.Status (m : Migrator σ) (st : DBState σ) : StatusResult σ :=
  ⟨none, st, statusReport m st.ledger⟩

/-- `Migrator.Reset`: drop the ledger's backing table (only that table —
the Go code explicitly drops nothing else), which also resets its
autoincrement sequence, then run `Up` again over the now-empty ledger. -/
def Migrator.Reset (m : Migrator σ) (st : DBState σ) : RunResult σ :=
  m.Up { st with ledgerExists := false, ledger := [], nextId := 1 }

/-- Display truncation used by `Status`'s table (`truncate` in
`migration.go`). -/
def truncate (s : String) (max : Nat) : String :=
  if s.length ≤ max then s else (s.take (max - 3)) ++ "..."

/-- Lowercasing as used by the CLI (`strings.ToLower` applied to the
scanned response): character-wise lowercasing of the string.  (Only the
ASCII range matters for the literal comparison with "y".) -/
def lowerString (s : String) : String :=
  String.mk (s.data.map Char.toLower)

/-- The CLI `reset` confirmation check (`cmd/migrate/main.go`): the
response is lowercased and compared with "y". -/
def confirmReset (response : String) : Bool :=
  lowerString response == "y"

/-- The CLI `reset` command: on a confirmed response it runs
`Migrator.Reset`; otherwise it prints "Reset cancelled." and exits with
code 0 having touched nothing (`none`). -/
def cliReset (m : Migrator σ) (st : DBState σ) (response : String) :
    Option (RunResult σ) :=
  if confirmReset response then some (m.Reset st) else none

/-- Steps of `steps` not yet recorded in the executed map — the ones
`Up`'s loop will attempt. -/
def pendingSteps (executedMap : List String) (steps : List (MigrationStep σ)) :
    List (MigrationStep σ) :=
  steps.filter (fun s => !(executedMap.contains s.Version))

/-- Versions of the pending steps, in registration order. -/
def pendingVersions (executedMap : List String) (steps : List (MigrationStep σ)) :
    List String :=
  (pendingSteps executedMap steps).map (fun s => s.Version)

/-- The ledger rows a successful run of `Up`'s loop appends for the
given steps, starting from primary key `i` and clock `t`. -/
def newRecords : List (MigrationStep σ) → Nat → Nat → List Migration
  | [], _, _ => []
  | s :: rest, i, t => ⟨i, s.Version, s.Description, t⟩ :: newRecords rest (i + 1) (t + 1)

/-- The engine invariant of the spec's data model: every version in the
ledger is the version of some registered step. -/
def LedgerSubset (m : Migrator σ) (st : DBState σ) : Prop :=
  ∀ v ∈ st.ledger.map (fun r => r.version), v ∈ m.migrations.map (fun s => s.Version)

/-! ## The users store acted on by the seed-admin step (claim C10) -/

/-- Role constant `models.RoleAdmin` (`internal/models/user.go`). -/
def RoleAdmin : String := "admin"

/-- A row of the `users` table, with the fields the seed migration sets
(`internal/models/user.go`; the time-stamp columns and the bcrypt
password hashing of the `BeforeCreate` hook are orthogonal to the
seeding logic and not modelled). -/
structure User where
  email : String
  password : String
  firstName : String
  lastName : String
  role : String
  isActive : Bool
deriving Repr, DecidableEq

/-- The `users` table. -/
structure UsersStore where
  users : List User
deriving Repr, DecidableEq

/-- Inserting a user (`tx.Create(&adminUser)`): the `unique` constraint
on `email` rejects a duplicate, otherwise the row is appended. -/
def createUser (s : UsersStore) (u : User) : Except String UsersStore :=
  if s.users.any (fun x => x.email == u.email) then
    Except.error "duplicate key value violates unique constraint on users email"
  else
    Except.ok { users := s.users ++ [u] }

/-- Forward action of `Migration003SeedAdminUser`
(`versions/003_seed_admin_user.go`): count the users whose EMAIL equals
`models.RoleAdmin` (the string "admin" — this is what the source
compares, not the admin email), skip if any, otherwise insert the
default admin user with email "admin@company.com". -/
def migration003Up (s : UsersStore) : Except String UsersStore :=
  let count := (s.users.filter (fun u => u.email == RoleAdmin)).length
  if count > 0 then
    Except.ok s
  else
    createUser s ⟨"admin@company.com", "Admin123#", "John", "Doe", RoleAdmin, true⟩

/-- Backward action of `Migration003SeedAdminUser`: delete the users
with email "admin@company.com". -/
def migration003Down (s : UsersStore) : Except String UsersStore :=
  Except.ok { users := s.users.filter (fun u => !(u.email == "admin@company.com")) }

/-- The registered step `003_seed_admin_user`. -/
def Migration003SeedAdminUser : MigrationStep UsersStore :=
  ⟨"003_seed_admin_user", "Seed initial admin user", migration003Up, migration003Down⟩

/-- A users table that already contains the seeded admin row (the state
reached right after the step's forward action first ran) and no row
whose email is the literal "admin". -/
def seededStore : UsersStore :=
  ⟨[⟨"admin@company.com", "Admin123#", "John", "Doe", RoleAdmin, true⟩]⟩

/-! ## Concrete fixtures used by the witnesses -/

/-- A step whose forward action always succeeds. -/
def stepOk (v : String) : MigrationStep Nat :=
  ⟨v, "desc " ++ v, fun n => Except.ok (n + 1), fun n => Except.ok (n - 1)⟩

/-- A step whose forward action always fails. -/
def stepBad (v : String) : MigrationStep Nat :=
  ⟨v, "bad " ++ v, fun _ => Except.error "boom", fun _ => Except.error "boom"⟩

/-- Two always-succeeding registered steps. -/
def mGood : Migrator Nat := ⟨[stepOk "001", stepOk "002"]⟩

/-- Three registered steps whose second one fails. -/
def mFail : Migrator Nat := ⟨[stepOk "001", stepBad "002", stepOk "003"]⟩

/-- An initial state with an empty ledger. -/
def st0 : DBState Nat := ⟨false, [], 1, 10, 0⟩

/-- A state whose only ledger row matches no registered step. -/
def stOrphan : DBState Nat := ⟨true, [⟨1, "999", "orphan", 5⟩], 2, 6, 0⟩

/-! ## Basic lemmas about the embedded operations -/

/-- Membership form of the executed-version map lookup. -/
lemma contains_mem {l : List String} {v : String} : l.contains v = true ↔ v ∈ l := by
  simp [List.contains, List.elem_iff]

/-- Negative membership form of the executed-version map lookup. -/
lemma not_mem_of_contains_false {l : List String} {v : String}
    (h : l.contains v = false) : v ∉ l := by
  intro hm
  rw [contains_mem.mpr hm] at h
  simp at h

/-- A step already in the executed map is not pending. -/
lemma pendingSteps_cons_skip {em : List String} {step : MigrationStep σ}
    {rest : List (MigrationStep σ)} (hc : em.contains step.Version = true) :
    pendingSteps em (step :: rest) = pendingSteps em rest := by
  simp [pendingSteps, contains_mem.mp hc]

/-- A step not in the executed map heads the pending list. -/
lemma pendingSteps_cons_pend {em : List String} {step : MigrationStep σ}
    {rest : List (MigrationStep σ)} (hc : em.contains step.Version = false) :
    pendingSteps em (step :: rest) = step :: pendingSteps em rest := by
  simp [pendingSteps, not_mem_of_contains_false hc]

/-- Version-list form of `pendingSteps_cons_skip`. -/
lemma pendingVersions_cons_skip {em : List String} {step : MigrationStep σ}
    {rest : List (MigrationStep σ)} (hc : em.contains step.Version = true) :
    pendingVersions em (step :: rest) = pendingVersions em rest := by
  simp [pendingVersions, pendingSteps_cons_skip hc]

/-- Version-list form of `pendingSteps_cons_pend`. -/
lemma pendingVersions_cons_pend {em : List String} {step : MigrationStep σ}
    {rest : List (MigrationStep σ)} (hc : em.contains step.Version = false) :
    pendingVersions em (step :: rest) = step.Version :: pendingVersions em rest := by
  simp [pendingVersions, pendingSteps_cons_pend hc]

/-- A pending version is not in the executed map. -/
lemma pendingVersions_not_contains {em : List String} {steps : List (MigrationStep σ)}
    {v : String} (h : v ∈ pendingVersions em steps) : em.contains v = false := by
  unfold pendingVersions pendingSteps at h
  obtain ⟨s, hs, hv⟩ := List.mem_map.mp h
  obtain ⟨-, hkeep⟩ := List.mem_filter.mp hs
  subst hv
  simpa using hkeep

/-- The pending versions form a sublist of all registered versions. -/
lemma pendingVersions_sublist (em : List String) (steps : List (MigrationStep σ)) :
    List.Sublist (pendingVersions em steps) (steps.map (fun s => s.Version)) := by
  unfold pendingVersions pendingSteps
  exact (List.filter_sublist steps).map (fun s => s.Version)

/-- Writing a duplicate version into the ledger fails on the `unique`
constraint. -/
lemma insertRecord_dup (st : DBState σ) {v d : String}
    (h : st.ledger.any (fun r => r.version == v) = true) :
    insertRecord st v d = Except.error ("failed to record migration " ++ v) := by
  unfold insertRecord
  rw [h]
  simp

/-- Writing a fresh version into the ledger appends the row and advances
the id and clock counters. -/
lemma insertRecord_new (st : DBState σ) {v d : String}
    (h : st.ledger.any (fun r => r.version == v) = false) :
    insertRecord st v d = Except.ok { st with
      ledger := st.ledger ++ [⟨st.nextId, v, d, st.now⟩],
      nextId := st.nextId + 1,
      now := st.now + 1 } := by
  unfold insertRecord
  rw [h]
  simp

/-- Characterisation of a committed step transaction: the forward action
succeeded, no ledger row carried the version yet, and the new state is
the old one with the new row appended and the counters advanced. -/
lemma runStep_ok {step : MigrationStep σ} {st st1 : DBState σ}
    (h : runStep step st = Except.ok st1) :
    ∃ s, step.Up st.store = Except.ok s ∧
      st.ledger.any (fun r => r.version == step.Version) = false ∧
      st1 = ⟨st.ledgerExists,
        st.ledger ++ [⟨st.nextId, step.Version, step.Description, st.now⟩],
        st.nextId + 1, st.now + 1, s⟩ := by
  unfold runStep at h
  cases hu : step.Up st.store with
  | error e => rw [hu] at h; exact absurd h (by simp)
  | ok s =>
    rw [hu] at h
    have h2 : insertRecord { st with store := s } step.Version step.Description =
        Except.ok st1 := h
    cases ha : st.ledger.any (fun r => r.version == step.Version) with
    | true =>
      rw [insertRecord_dup { st with store := s } ha] at h2
      exact absurd h2 (by simp)
    | false =>
      rw [insertRecord_new { st with store := s } ha] at h2
      cases h2
      exact ⟨s, rfl, rfl, rfl⟩

/-- Unfolding `upLoop` past an already-executed step. -/
lemma upLoop_cons_skip {em : List String} {step : MigrationStep σ}
    {rest : List (MigrationStep σ)} {st : DBState σ}
    (hc : em.contains step.Version = true) :
    upLoop em (step :: rest) st = upLoop em rest st := by
  simp [upLoop, contains_mem.mp hc]

/-- Unfolding `upLoop` at a pending step whose transaction fails. -/
lemma upLoop_cons_fail {em : List String} {step : MigrationStep σ}
    {rest : List (MigrationStep σ)} {st : DBState σ} {e : String}
    (hc : em.contains step.Version = false)
    (hr : runStep step st = Except.error e) :
    upLoop em (step :: rest) st =
      ⟨some ("failed to run migration " ++ step.Version ++ ": " ++ e), st,
        [step.Version]⟩ := by
  simp [upLoop, not_mem_of_contains_false hc, hr]

/-- Unfolding `upLoop` at a pending step whose transaction commits. -/
lemma upLoop_cons_ok {em : List String} {step : MigrationStep σ}
    {rest : List (MigrationStep σ)} {st st1 : DBState σ}
    (hc : em.contains step.Version = false)
    (hr : runStep step st = Except.ok st1) :
    upLoop em (step :: rest) st =
      ⟨(upLoop em rest st1).err, (upLoop em rest st1).state,
        step.Version :: (upLoop em rest st1).trace⟩ := by
  simp [upLoop, not_mem_of_contains_false hc, hr]

/-! ## Properties of the rows a run of `Up` appends -/

/-- The versions of the appended rows are the versions of the steps. -/
lemma newRecords_map_version (steps : List (MigrationStep σ)) (i t : Nat) :
    (newRecords steps i t).map (fun r => r.version) = steps.map (fun s => s.Version) := by
  induction steps generalizing i t with
  | nil => rfl
  | cons s rest ih => simp [newRecords, ih]

/-- One row is appended per step. -/
lemma newRecords_length (steps : List (MigrationStep σ)) (i t : Nat) :
    (newRecords steps i t).length = steps.length := by
  induction steps generalizing i t with
  | nil => rfl
  | cons s rest ih => simp [newRecords, ih]

/-- The k-th appended row mirrors the k-th step, with primary key `i + k`
and timestamp `t + k`. -/
lemma newRecords_getElem {steps : List (MigrationStep σ)} {k : Nat} {s : MigrationStep σ}
    (hs : steps[k]? = some s) (i t : Nat) :
    (newRecords steps i t)[k]? = some ⟨i + k, s.Version, s.Description, t + k⟩ := by
  induction steps generalizing i t k with
  | nil => simp at hs
  | cons a rest ih =>
    cases k with
    | zero =>
      simp only [List.getElem?_cons_zero, Option.some.injEq] at hs
      subst hs
      simp [newRecords]
    | succ k =>
      simp only [List.getElem?_cons_succ] at hs
      have h2 := ih hs (i + 1) (t + 1)
      simp only [newRecords, List.getElem?_cons_succ]
      rw [h2]
      have e1 : i + 1 + k = i + (k + 1) := by omega
      have e2 : t + 1 + k = t + (k + 1) := by omega
      rw [e1, e2]

/-- Every appended row's timestamp is at least the starting clock. -/
lemma newRecords_executedAt_ge {steps : List (MigrationStep σ)} {i t : Nat} {r : Migration}
    (h : r ∈ newRecords steps i t) : t ≤ r.executedAt := by
  induction steps generalizing i t with
  | nil => simp [newRecords] at h
  | cons s rest ih =>
    rcases List.mem_cons.mp h with h1 | h1
    · subst h1; simp
    · exact Nat.le_of_succ_le (ih h1)

/-- The appended rows carry strictly increasing timestamps. -/
lemma newRecords_pairwise (steps : List (MigrationStep σ)) (i t : Nat) :
    List.Pairwise (fun a b => a.executedAt < b.executedAt) (newRecords steps i t) := by
  induction steps generalizing i t with
  | nil => simp [newRecords]
  | cons s rest ih =>
    refine List.Pairwise.cons ?_ (ih (i + 1) (t + 1))
    intro b hb
    have := newRecords_executedAt_ge hb
    simp only []
    omega

/-- The last appended row carries the last step's version. -/
lemma newRecords_getLast_version (steps : List (MigrationStep σ)) (i t : Nat) :
    ((newRecords steps i t).getLast?).map (fun r => r.version) =
      (steps.getLast?).map (fun s => s.Version) := by
  induction steps generalizing i t with
  | nil => rfl
  | cons s rest ih =>
    cases rest with
    | nil => simp [newRecords]
    | cons b rest2 =>
      have h1 := ih (i + 1) (t + 1)
      simp only [newRecords] at h1 ⊢
      rw [List.getLast?_cons_cons, List.getLast?_cons_cons]
      simpa [newRecords] using h1

/-! ## Properties of the latest-row query used by `Down` -/

/-- The fold picking the most recent row stays inside the list. -/
lemma foldl_choice_mem (r : Migration) (l : List Migration) :
    l.foldl (fun acc x => if acc.executedAt < x.executedAt then x else acc) r ∈ r :: l := by
  induction l generalizing r with
  | nil => simp
  | cons a l ih =>
    simp only [List.foldl_cons]
    by_cases h : r.executedAt < a.executedAt
    · rw [if_pos h]
      have := ih a
      simp only [List.mem_cons] at this ⊢
      tauto
    · rw [if_neg h]
      have := ih r
      simp only [List.mem_cons] at this ⊢
      tauto

/-- The most recent row, when it exists, is a row of the ledger. -/
lemma latestMigration_mem {l : List Migration} {r : Migration}
    (h : latestMigration l = some r) : r ∈ l := by
  cases l with
  | nil => simp [latestMigration] at h
  | cons a l =>
    simp only [latestMigration, Option.some.injEq] at h
    subst h
    exact foldl_choice_mem a l

/-- Appending a strictly newer row makes it the most recent one. -/
lemma latestMigration_append_big {l : List Migration} {r : Migration}
    (h : ∀ x ∈ l, x.executedAt < r.executedAt) :
    latestMigration (l ++ [r]) = some r := by
  cases l with
  | nil => simp [latestMigration]
  | cons a l =>
    simp only [List.cons_append, latestMigration, Option.some.injEq]
    rw [List.foldl_append]
    have hmem := foldl_choice_mem a l
    have hlt := h _ hmem
    simp [hlt]

/-- On a ledger with strictly increasing timestamps the most recent row
is the last one. -/
lemma latestMigration_sorted {l : List Migration}
    (h : List.Pairwise (fun a b => a.executedAt < b.executedAt) l) :
    latestMigration l = l.getLast? := by
  induction l using List.reverseRecOn with
  | nil => rfl
  | append_singleton l r ih =>
    rw [List.getLast?_concat]
    refine latestMigration_append_big ?_
    intro x hx
    exact ((List.pairwise_append.mp h).2.2 x hx r (List.mem_singleton_self r))

/-! ## Characterisations of the `Up` loop -/

/-- Successful run of the loop: the trace is exactly the pending
versions in registration order, the ledger grows by exactly the
corresponding rows, and the counters advance accordingly. -/
lemma upLoop_ok {em : List String} {steps : List (MigrationStep σ)} {st : DBState σ}
    (h : (upLoop em steps st).err = none) :
    (upLoop em steps st).trace = pendingVersions em steps ∧
    (upLoop em steps st).state.ledger =
      st.ledger ++ newRecords (pendingSteps em steps) st.nextId st.now ∧
    (upLoop em steps st).state.nextId = st.nextId + (pendingSteps em steps).length ∧
    (upLoop em steps st).state.now = st.now + (pendingSteps em steps).length ∧
    (upLoop em steps st).state.ledgerExists = st.ledgerExists := by
  induction steps generalizing st with
  | nil =>
    simp [upLoop, pendingVersions, pendingSteps, newRecords]
  | cons step rest ih =>
    cases hc : em.contains step.Version with
    | true =>
      rw [upLoop_cons_skip hc] at h ⊢
      rw [pendingVersions_cons_skip hc, pendingSteps_cons_skip hc]
      exact ih h
    | false =>
      cases hr : runStep step st with
      | error e =>
        rw [upLoop_cons_fail hc hr] at h
        simp at h
      | ok st1 =>
        rw [upLoop_cons_ok hc hr] at h ⊢
        dsimp only at h ⊢
        obtain ⟨s, hu, ha, hst1⟩ := runStep_ok hr
        obtain ⟨h1, h2, h3, h4, h5⟩ := ih h
        subst hst1
        rw [pendingVersions_cons_pend hc, pendingSteps_cons_pend hc]
        refine ⟨by rw [h1], ?_, ?_, ?_, ?_⟩
        · rw [h2]
          simp [newRecords, List.append_assoc]
        · rw [h3]
          simp [List.length_cons]
          omega
        · rw [h4]
          simp [List.length_cons]
          omega
        · exact h5

/-- Failed run of the loop: the trace is a non-empty prefix of the
pending versions, and the ledger grows by exactly the rows of the trace
without its last element (the failing step's transaction rolled back). -/
lemma upLoop_err {em : List String} {steps : List (MigrationStep σ)} {st : DBState σ}
    (h : (upLoop em steps st).err ≠ none) :
    (upLoop em steps st).trace ≠ [] ∧
    (upLoop em steps st).trace =
      (pendingVersions em steps).take (upLoop em steps st).trace.length ∧
    (upLoop em steps st).state.ledger.map (fun r => r.version) =
      st.ledger.map (fun r => r.version) ++ (upLoop em steps st).trace.dropLast ∧
    (upLoop em steps st).state.ledgerExists = st.ledgerExists := by
  induction steps generalizing st with
  | nil => simp [upLoop] at h
  | cons step rest ih =>
    cases hc : em.contains step.Version with
    | true =>
      rw [upLoop_cons_skip hc] at h ⊢
      rw [pendingVersions_cons_skip hc]
      exact ih h
    | false =>
      cases hr : runStep step st with
      | error e =>
        rw [upLoop_cons_fail hc hr]
        rw [pendingVersions_cons_pend hc]
        exact ⟨by simp, by simp, by simp, rfl⟩
      | ok st1 =>
        rw [upLoop_cons_ok hc hr] at h ⊢
        dsimp only at h ⊢
        obtain ⟨htr, htake, hled, hex⟩ := ih h
        obtain ⟨s, hu, ha, hst1⟩ := runStep_ok hr
        subst hst1
        rw [pendingVersions_cons_pend hc]
        obtain ⟨x, xs, htrc⟩ := List.exists_cons_of_ne_nil htr
        refine ⟨by simp, ?_, ?_, hex⟩
        · rw [List.length_cons, List.take_succ_cons, ← htake]
        · rw [hled, htrc]
          simp [List.append_assoc]

/-- The loop succeeds when every forward action is total, the pending
versions are distinct, and no pending version is already in the ledger. -/
lemma upLoop_total {em : List String} {steps : List (MigrationStep σ)} {st : DBState σ}
    (hok : ∀ s ∈ steps, ∀ x, ∃ y, s.Up x = Except.ok y)
    (hnd : (pendingVersions em steps).Nodup)
    (hled : ∀ s ∈ pendingSteps em steps, ∀ r ∈ st.ledger, r.version ≠ s.Version) :
    (upLoop em steps st).err = none := by
  induction steps generalizing st with
  | nil => simp [upLoop]
  | cons step rest ih =>
    cases hc : em.contains step.Version with
    | true =>
      rw [upLoop_cons_skip hc]
      refine ih (fun s hs => hok s (List.mem_cons_of_mem _ hs)) ?_ ?_
      · rwa [pendingVersions_cons_skip hc] at hnd
      · intro s hs
        exact hled s (by rwa [pendingSteps_cons_skip hc])
    | false =>
      obtain ⟨y, hy⟩ := hok step (List.mem_cons_self _ _) st.store
      have hndc := hnd
      rw [pendingVersions_cons_pend hc] at hndc
      have hany : st.ledger.any (fun r => r.version == step.Version) = false := by
        rw [List.any_eq_false]
        intro r hr
        have := hled step (by rw [pendingSteps_cons_pend hc]; exact List.mem_cons_self _ _) r hr
        simpa using this
      have hrun : runStep step st = Except.ok ⟨st.ledgerExists,
          st.ledger ++ [⟨st.nextId, step.Version, step.Description, st.now⟩],
          st.nextId + 1, st.now + 1, y⟩ := by
        unfold runStep
        rw [hy]
        exact insertRecord_new { st with store := y } hany
      rw [upLoop_cons_ok hc hrun]
      dsimp only
      refine ih (fun s hs => hok s (List.mem_cons_of_mem _ hs)) (List.nodup_cons.mp hndc).2 ?_
      intro s hs r hr
      rcases List.mem_append.mp hr with h1 | h1
      · exact hled s (by rw [pendingSteps_cons_pend hc]; exact List.mem_cons_of_mem _ hs) r h1
      · have hreq : r = ⟨st.nextId, step.Version, step.Description, st.now⟩ := by
          simpa using h1
        subst hreq
        intro he
        have he2 : step.Version = s.Version := he
        apply (List.nodup_cons.mp hndc).1
        rw [he2]
        unfold pendingVersions
        exact List.mem_map_of_mem (fun s => s.Version) hs

/-- A loop over steps that are all already executed does nothing. -/
lemma upLoop_all_executed (em : List String) (steps : List (MigrationStep σ))
    (st : DBState σ) (h : ∀ s ∈ steps, em.contains s.Version = true) :
    upLoop em steps st = ⟨none, st, []⟩ := by
  induction steps with
  | nil => rfl
  | cons step rest ih =>
    rw [upLoop_cons_skip (h step (List.mem_cons_self _ _))]
    exact ih (fun s hs => h s (List.mem_cons_of_mem _ hs))

/-- The first version the loop attempts is the first pending version. -/
lemma upLoop_trace_head (em : List String) (steps : List (MigrationStep σ)) (st : DBState σ) :
    (upLoop em steps st).trace.head? = (pendingVersions em steps).head? := by
  induction steps generalizing st with
  | nil => simp [upLoop, pendingVersions, pendingSteps]
  | cons step rest ih =>
    cases hc : em.contains step.Version with
    | true =>
      rw [upLoop_cons_skip hc, pendingVersions_cons_skip hc]
      exact ih st
    | false =>
      rw [pendingVersions_cons_pend hc]
      cases hr : runStep step st with
      | error e =>
        rw [upLoop_cons_fail hc hr]
        rfl
      | ok st1 =>
        rw [upLoop_cons_ok hc hr]
        rfl

/-- Every version the loop attempts is pending. -/
lemma upLoop_trace_mem {em : List String} {steps : List (MigrationStep σ)} {st : DBState σ}
    {v : String} (h : v ∈ (upLoop em steps st).trace) : v ∈ pendingVersions em steps := by
  induction steps generalizing st with
  | nil => simp [upLoop] at h
  | cons step rest ih =>
    cases hc : em.contains step.Version with
    | true =>
      rw [upLoop_cons_skip hc] at h
      rw [pendingVersions_cons_skip hc]
      exact ih h
    | false =>
      rw [pendingVersions_cons_pend hc]
      cases hr : runStep step st with
      | error e =>
        rw [upLoop_cons_fail hc hr] at h
        simp only [List.mem_singleton] at h
        simp [h]
      | ok st1 =>
        rw [upLoop_cons_ok hc hr] at h
        dsimp only at h
        rcases List.mem_cons.mp h with h1 | h1
        · simp [h1]
        · exact List.mem_cons_of_mem _ (ih h1)

/-- Membership form of a pending step's version. -/
lemma version_mem_pendingVersions {em : List String} {steps : List (MigrationStep σ)}
    {s : MigrationStep σ} (h : s ∈ pendingSteps em steps) :
    s.Version ∈ pendingVersions em steps := by
  unfold pendingVersions
  exact List.mem_map_of_mem (fun s => s.Version) h

/-- How the pending list evolves when the executed map grows by the
first `j` previously-pending versions: the new pending list is the old
one with its first `j` entries dropped.  (Distinct registered versions
are the caller contract the spec states for step authors.) -/
lemma pendingVersions_drop {steps : List (MigrationStep σ)} {em em2 : List String} {j : Nat}
    (hnd : (steps.map (fun s => s.Version)).Nodup)
    (hem : ∀ v ∈ steps.map (fun s => s.Version),
      (em2.contains v = true ↔
        (em.contains v = true ∨ v ∈ (pendingVersions em steps).take j))) :
    pendingVersions em2 steps = (pendingVersions em steps).drop j := by
  induction steps generalizing j with
  | nil => simp [pendingVersions, pendingSteps]
  | cons step rest ih =>
    have hndr : (rest.map (fun s => s.Version)).Nodup := (List.nodup_cons.mp hnd).2
    have hVnotin : step.Version ∉ rest.map (fun s => s.Version) := (List.nodup_cons.mp hnd).1
    cases hc : em.contains step.Version with
    | true =>
      have hc2 : em2.contains step.Version = true :=
        (hem step.Version (List.mem_cons_self _ _)).mpr (Or.inl hc)
      rw [pendingVersions_cons_skip hc, pendingVersions_cons_skip hc2]
      refine ih hndr ?_
      intro v hv
      have h1 := hem v (List.mem_cons_of_mem _ hv)
      rwa [pendingVersions_cons_skip hc] at h1
    | false =>
      cases j with
      | zero =>
        have hc2 : em2.contains step.Version = false := by
          cases hcc : em2.contains step.Version with
          | false => rfl
          | true =>
            rcases (hem step.Version (List.mem_cons_self _ _)).mp hcc with h1 | h1
            · rw [hc] at h1; exact absurd h1 (by simp)
            · simp at h1
        have hrec : pendingVersions em2 rest = (pendingVersions em rest).drop 0 := by
          refine ih hndr ?_
          intro v hv
          have h1 := hem v (List.mem_cons_of_mem _ hv)
          rw [pendingVersions_cons_pend hc] at h1
          simpa using h1
        rw [pendingVersions_cons_pend hc, pendingVersions_cons_pend hc2, List.drop_zero,
          hrec, List.drop_zero]
      | succ j =>
        have hc2 : em2.contains step.Version = true := by
          refine (hem step.Version (List.mem_cons_self _ _)).mpr (Or.inr ?_)
          rw [pendingVersions_cons_pend hc, List.take_succ_cons]
          exact List.mem_cons_self _ _
        rw [pendingVersions_cons_pend hc, pendingVersions_cons_skip hc2,
          List.drop_succ_cons]
        refine ih hndr ?_
        intro v hv
        have h1 := hem v (List.mem_cons_of_mem _ hv)
        rw [pendingVersions_cons_pend hc, List.take_succ_cons] at h1
        have hvV : v ≠ step.Version := by
          intro he
          exact hVnotin (he ▸ hv)
        constructor
        · intro h2
          rcases h1.mp h2 with h3 | h3
          · exact Or.inl h3
          · rcases List.mem_cons.mp h3 with h4 | h4
            · exact absurd h4 hvV
            · exact Or.inr h4
        · intro h2
          refine h1.mpr ?_
          rcases h2 with h3 | h3
          · exact Or.inl h3
          · exact Or.inr (List.mem_cons_of_mem _ h3)

/-- With an empty executed map every registered step is pending. -/
lemma pendingSteps_nil (steps : List (MigrationStep σ)) :
    pendingSteps ([] : List String) steps = steps := by
  simp [pendingSteps]

/-- With an empty executed map the pending versions are all versions. -/
lemma pendingVersions_nil (steps : List (MigrationStep σ)) :
    pendingVersions ([] : List String) steps = steps.map (fun s => s.Version) := by
  simp [pendingVersions, pendingSteps]

/-- The k-th appended row's timestamp is `t + k`. -/
lemma newRecords_executedAt_at {steps : List (MigrationStep σ)} {i t k : Nat} {r : Migration}
    (h : (newRecords steps i t)[k]? = some r) : r.executedAt = t + k := by
  induction steps generalizing i t k with
  | nil => simp [newRecords] at h
  | cons s rest ih =>
    cases k with
    | zero =>
      simp only [newRecords, List.getElem?_cons_zero, Option.some.injEq] at h
      rw [← h]
      rfl
    | succ k =>
      simp only [newRecords, List.getElem?_cons_succ] at h
      have := ih h
      omega

/-! ## Branch equations of `Down` -/

/-- `Down` on an empty ledger is a successful no-op. -/
lemma down_nil {m : Migrator σ} {st : DBState σ} (h : st.ledger = []) :
    m.Down st = ⟨none, st, []⟩ := by
  unfold Migrator.Down
  rw [h]
  rfl

/-- `Down` on an orphaned latest row fails without invoking anything. -/
lemma down_orphan {m : Migrator σ} {st : DBState σ} {last : Migration}
    (hl : latestMigration st.ledger = some last)
    (hf : m.migrations.find? (fun s => s.Version == last.version) = none) :
    m.Down st =
      ⟨some ("migration step not found for version: " ++ last.version), st, []⟩ := by
  unfold Migrator.Down
  rw [hl]
  dsimp only
  rw [hf]

/-- `Down` whose backward action succeeds deletes the latest row by
primary key and commits the new store. -/
lemma down_ok {m : Migrator σ} {st : DBState σ} {last : Migration}
    {step : MigrationStep σ} {s : σ}
    (hl : latestMigration st.ledger = some last)
    (hf : m.migrations.find? (fun s2 => s2.Version == last.version) = some step)
    (hd : step.Down st.store = Except.ok s) :
    m.Down st = ⟨none,
      { st with
        store := s
        ledger := st.ledger.eraseP (fun r => r.id == last.id) },
      [last.version]⟩ := by
  unfold Migrator.Down
  rw [hl]
  dsimp only
  rw [hf]
  dsimp only
  rw [hd]

/-- `Down` whose backward action fails rolls the transaction back: the
state is unchanged. -/
lemma down_fail {m : Migrator σ} {st : DBState σ} {last : Migration}
    {step : MigrationStep σ} {e : String}
    (hl : latestMigration st.ledger = some last)
    (hf : m.migrations.find? (fun s2 => s2.Version == last.version) = some step)
    (hd : step.Down st.store = Except.error e) :
    m.Down st = ⟨some ("failed to roll back migration " ++ step.Version ++ ": " ++
      ("failed to execute rollback for migration " ++ step.Version ++ ": " ++ e)),
      st, [last.version]⟩ := by
  unfold Migrator.Down
  rw [hl]
  dsimp only
  rw [hf]
  dsimp only
  rw [hd]

/-- Whatever `Down` does, the resulting ledger is a sublist of the old
one (either unchanged or with one row erased). -/
lemma down_ledger_sublist (m : Migrator σ) (st : DBState σ) :
    List.Sublist (m.Down st).state.ledger st.ledger := by
  cases hl : latestMigration st.ledger with
  | none =>
    have hnil : st.ledger = [] := by
      cases hll : st.ledger with
      | nil => rfl
      | cons a l =>
        rw [hll] at hl
        simp [latestMigration] at hl
    rw [down_nil hnil]
  | some last =>
    cases hf : m.migrations.find? (fun s2 => s2.Version == last.version) with
    | none =>
      rw [down_orphan hl hf]
    | some step =>
      cases hd : step.Down st.store with
      | error e =>
        rw [down_fail hl hf hd]
      | ok s =>
        rw [down_ok hl hf hd]
        exact List.eraseP_sublist st.ledger

/-- `Up` preserves the spec invariant that ledger versions come from the
registered steps: every row it writes mirrors a registered step. -/
lemma up_preserves_subset {m : Migrator σ} {st : DBState σ} (h : LedgerSubset m st) :
    LedgerSubset m (m.Up st).state := by
  intro v hv
  cases herr : (m.Up st).err with
  | none =>
    have herr2 : (upLoop (st.ledger.map (fun r => r.version)) m.migrations
        { st with ledgerExists := true }).err = none := herr
    obtain ⟨-, hledg0, -, -, -⟩ := upLoop_ok herr2
    have hledg : (m.Up st).state.ledger = st.ledger ++
        newRecords (pendingSteps (st.ledger.map (fun r => r.version)) m.migrations)
          st.nextId st.now := hledg0
    rw [hledg, List.map_append, List.mem_append] at hv
    rcases hv with h1 | h1
    · exact h v h1
    · rw [newRecords_map_version] at h1
      exact (pendingVersions_sublist _ _).subset h1
  | some e =>
    have herr2 : (upLoop (st.ledger.map (fun r => r.version)) m.migrations
        { st with ledgerExists := true }).err = some e := herr
    obtain ⟨-, -, hled, -⟩ := upLoop_err (by rw [herr2]; simp)
    have hled2 : (m.Up st).state.ledger.map (fun r => r.version) =
        st.ledger.map (fun r => r.version) ++ (m.Up st).trace.dropLast := hled
    rw [hled2, List.mem_append] at hv
    rcases hv with h1 | h1
    · exact h v h1
    · have hvt : v ∈ (upLoop (st.ledger.map (fun r => r.version)) m.migrations
          { st with ledgerExists := true }).trace := List.dropLast_subset _ h1
      exact (pendingVersions_sublist _ _).subset (upLoop_trace_mem hvt)

/-! ## Claim theorems -/

/-- C1: if a pending step's transaction fails during `Up`, the trace is
a non-empty prefix of the pending list (so no later step is attempted),
exactly the earlier attempted steps' rows are committed, the failing
step's row does not persist, and a subsequent `Up` starts again at the
failing step without re-running the committed ones.  Distinct registered
versions are the spec's caller contract. -/
theorem claim1_up_failure_atomicity (m : Migrator σ) (st : DBState σ)
    (hnd : (m.migrations.map (fun s => s.Version)).Nodup)
    (hfail : (m.Up st).err ≠ none) :
    (m.Up st).trace ≠ [] ∧
    (m.Up st).trace =
      (pendingVersions (st.ledger.map (fun r => r.version)) m.migrations).take
        (m.Up st).trace.length ∧
    (m.Up st).state.ledger.map (fun r => r.version) =
      st.ledger.map (fun r => r.version) ++ (m.Up st).trace.dropLast ∧
    (∀ v, (m.Up st).trace.getLast? = some v →
      v ∉ (m.Up st).state.ledger.map (fun r => r.version)) ∧
    (m.Up ((m.Up st).state)).trace.head? = (m.Up st).trace.getLast? ∧
    (∀ v ∈ (m.Up st).trace.dropLast, v ∉ (m.Up ((m.Up st).state)).trace) := by
  have hfail2 : (upLoop (st.ledger.map (fun r => r.version)) m.migrations
      { st with ledgerExists := true }).err ≠ none := hfail
  obtain ⟨htne0, htake0, hled0, hex0⟩ := upLoop_err hfail2
  have htne : (m.Up st).trace ≠ [] := htne0
  have htake : (m.Up st).trace =
      (pendingVersions (st.ledger.map (fun r => r.version)) m.migrations).take
        (m.Up st).trace.length := htake0
  have hled : (m.Up st).state.ledger.map (fun r => r.version) =
      st.ledger.map (fun r => r.version) ++ (m.Up st).trace.dropLast := hled0
  have hndp : (pendingVersions (st.ledger.map (fun r => r.version)) m.migrations).Nodup :=
    hnd.sublist (pendingVersions_sublist _ _)
  have hk1 : 1 ≤ (m.Up st).trace.length := by
    have h2 := List.length_pos.mpr htne
    omega
  have hkp : (m.Up st).trace.length ≤
      (pendingVersions (st.ledger.map (fun r => r.version)) m.migrations).length := by
    have hlen := congrArg List.length htake
    rw [List.length_take] at hlen
    omega
  have hdl : (m.Up st).trace.dropLast =
      (pendingVersions (st.ledger.map (fun r => r.version)) m.migrations).take
        ((m.Up st).trace.length - 1) := by
    have h1 := List.dropLast_eq_take ((m.Up st).trace)
    rw [h1]
    conv_lhs => rw [htake]
    rw [List.length_take, List.take_take]
    congr 1
    omega
  have hgl : (m.Up st).trace.getLast? =
      (pendingVersions (st.ledger.map (fun r => r.version)) m.migrations)[
        (m.Up st).trace.length - 1]? := by
    have h1 := List.getLast?_eq_getElem? ((m.Up st).trace)
    rw [h1]
    conv_lhs => rw [htake]
    rw [List.length_take, List.getElem?_take]
    split
    · congr 1
      omega
    · rename_i hcond
      exact absurd (by omega) hcond
  have hpend2 : pendingVersions ((m.Up st).state.ledger.map (fun r => r.version))
        m.migrations =
      (pendingVersions (st.ledger.map (fun r => r.version)) m.migrations).drop
        ((m.Up st).trace.length - 1) := by
    refine pendingVersions_drop hnd ?_
    intro v hv
    rw [contains_mem, contains_mem, hled, List.mem_append, hdl]
  refine ⟨htne, htake, hled, ?_, ?_, ?_⟩
  · intro v hv
    have hvp : v ∈ pendingVersions (st.ledger.map (fun r => r.version)) m.migrations := by
      rw [hgl] at hv
      exact List.getElem?_mem hv
    rw [hled]
    intro hvin
    rcases List.mem_append.mp hvin with h1 | h1
    · exact not_mem_of_contains_false (pendingVersions_not_contains hvp) h1
    · have hvd : v ∈ (pendingVersions (st.ledger.map (fun r => r.version))
          m.migrations).drop ((m.Up st).trace.length - 1) := by
        refine List.mem_of_mem_head? ?_
        rw [List.head?_drop, ← hgl]
        exact hv
      rw [hdl] at h1
      exact List.disjoint_take_drop hndp (Nat.le_refl _) h1 hvd
  · have hhead0 := upLoop_trace_head
        ((m.Up st).state.ledger.map (fun (r : Migration) => r.version)) m.migrations
        { (m.Up st).state with ledgerExists := true }
    have hhead : (m.Up ((m.Up st).state)).trace.head? =
        (pendingVersions ((m.Up st).state.ledger.map (fun r => r.version))
          m.migrations).head? := hhead0
    rw [hhead, hpend2, List.head?_drop, ← hgl]
  · intro v hv hvin
    have hvin2 : v ∈ (upLoop ((m.Up st).state.ledger.map (fun (r : Migration) => r.version))
        m.migrations { (m.Up st).state with ledgerExists := true }).trace := hvin
    have hv2 : v ∈ pendingVersions ((m.Up st).state.ledger.map (fun r => r.version))
        m.migrations := upLoop_trace_mem hvin2
    rw [hpend2] at hv2
    rw [hdl] at hv
    exact List.disjoint_take_drop hndp (Nat.le_refl _) hv hv2

/-- Witness for C1: on the concrete migrator whose second step fails,
`Up` attempts at least one step. -/
theorem claim1_up_failure_atomicity_witness :
    (mFail.Up st0).trace ≠ [] ∧ (mFail.Up st0).trace.getLast? = some "002" :=
  ⟨(claim1_up_failure_atomicity mFail st0 (by decide) (by decide)).1, by decide⟩

/-- C2: on an empty ledger, with pairwise-distinct versions and total
forward actions, `Up` succeeds, invokes every forward action exactly once
in registration order, and leaves one ledger row per step mirroring its
version and description, with non-decreasing timestamps. -/
theorem claim2_up_applies_all_in_order (m : Migrator σ) (st : DBState σ)
    (hempty : st.ledger = [])
    (hnd : (m.migrations.map (fun s => s.Version)).Nodup)
    (hup : ∀ s ∈ m.migrations, ∀ x, ∃ y, s.Up x = Except.ok y) :
    (m.Up st).err = none ∧
    (m.Up st).trace = m.migrations.map (fun s => s.Version) ∧
    (m.Up st).state.ledger.length = m.migrations.length ∧
    (∀ (i : Nat) (s : MigrationStep σ), m.migrations[i]? = some s →
      (m.Up st).state.ledger[i]? =
        some (Migration.mk (st.nextId + i) s.Version s.Description (st.now + i))) ∧
    (∀ (i j : Nat) (ri rj : Migration), i ≤ j → (m.Up st).state.ledger[i]? = some ri →
      (m.Up st).state.ledger[j]? = some rj → ri.executedAt ≤ rj.executedAt) := by
  have hem : st.ledger.map (fun r => r.version) = ([] : List String) := by
    rw [hempty]
    rfl
  have herr : (m.Up st).err = none := by
    have h0 : (upLoop (st.ledger.map (fun r => r.version)) m.migrations
        { st with ledgerExists := true }).err = none := by
      refine upLoop_total hup ?_ ?_
      · rw [hem, pendingVersions_nil]
        exact hnd
      · intro s hs r hr
        have hr2 : r ∈ st.ledger := hr
        rw [hempty] at hr2
        simp at hr2
    exact h0
  have herr2 : (upLoop (st.ledger.map (fun r => r.version)) m.migrations
      { st with ledgerExists := true }).err = none := herr
  obtain ⟨htr0, hledg0, hnid0, hnow0, hex0⟩ := upLoop_ok herr2
  have htr : (m.Up st).trace = m.migrations.map (fun s => s.Version) := by
    have h1 : (m.Up st).trace =
        pendingVersions (st.ledger.map (fun r => r.version)) m.migrations := htr0
    rw [h1, hem, pendingVersions_nil]
  have hledg : (m.Up st).state.ledger = newRecords m.migrations st.nextId st.now := by
    have h1 : (m.Up st).state.ledger = st.ledger ++
        newRecords (pendingSteps (st.ledger.map (fun r => r.version)) m.migrations)
          st.nextId st.now := hledg0
    rw [h1, hem, pendingSteps_nil, hempty, List.nil_append]
  refine ⟨herr, htr, ?_, ?_, ?_⟩
  · rw [hledg, newRecords_length]
  · intro i s hs
    rw [hledg]
    exact newRecords_getElem hs st.nextId st.now
  · intro i j ri rj hij hi hj
    rw [hledg] at hi hj
    have h1 := newRecords_executedAt_at hi
    have h2 := newRecords_executedAt_at hj
    omega

/-- Witness for C2: the two-step migrator applies both steps in order. -/
theorem claim2_up_applies_all_in_order_witness :
    (mGood.Up st0).err = none ∧ (mGood.Up st0).trace = ["001", "002"] := by
  have hok : ∀ s ∈ mGood.migrations, ∀ x, ∃ y, s.Up x = Except.ok y := by
    intro s hs x
    have h1 : s = stepOk "001" ∨ s = stepOk "002" := by simpa [mGood] using hs
    rcases h1 with h | h <;> subst h <;> exact ⟨x + 1, rfl⟩
  have h := claim2_up_applies_all_in_order mGood st0 rfl (by decide) hok
  refine ⟨h.1, ?_⟩
  rw [h.2.1]
  rfl

/-- C3: after a successful `Up` with no new registrations, a second `Up`
invokes no forward action, inserts nothing, leaves the state unchanged,
and succeeds. -/
theorem claim3_up_idempotent (m : Migrator σ) (st : DBState σ)
    (h : (m.Up st).err = none) :
    m.Up ((m.Up st).state) = ⟨none, (m.Up st).state, []⟩ := by
  have h2 : (upLoop (st.ledger.map (fun r => r.version)) m.migrations
      { st with ledgerExists := true }).err = none := h
  obtain ⟨htr, hledg0, hnid, hnow, hex0⟩ := upLoop_ok h2
  have hledg : (m.Up st).state.ledger = st.ledger ++
      newRecords (pendingSteps (st.ledger.map (fun r => r.version)) m.migrations)
        st.nextId st.now := hledg0
  have hcov : ∀ s ∈ m.migrations,
      ((m.Up st).state.ledger.map (fun r => r.version)).contains s.Version = true := by
    intro s hs
    rw [contains_mem, hledg, List.map_append, newRecords_map_version, List.mem_append]
    cases hc : (st.ledger.map (fun r => r.version)).contains s.Version with
    | true => exact Or.inl (contains_mem.mp hc)
    | false =>
      refine Or.inr ?_
      have hmem : s ∈ pendingSteps (st.ledger.map (fun r => r.version)) m.migrations := by
        unfold pendingSteps
        rw [List.mem_filter]
        exact ⟨hs, by rw [hc]; rfl⟩
      exact List.mem_map_of_mem _ hmem
  have hexT : (m.Up st).state.ledgerExists = true := hex0
  have hsteq : ∀ (x : DBState σ), x.ledgerExists = true →
      ({ x with ledgerExists := true } : DBState σ) = x := by
    intro x hx
    cases x with
    | mk a b c d e =>
      dsimp at hx
      subst hx
      rfl
  have hall := upLoop_all_executed
    ((m.Up st).state.ledger.map (fun (r : Migration) => r.version)) m.migrations
    { (m.Up st).state with ledgerExists := true } hcov
  calc m.Up ((m.Up st).state)
      = upLoop ((m.Up st).state.ledger.map (fun (r : Migration) => r.version))
          m.migrations { (m.Up st).state with ledgerExists := true } := rfl
    _ = ⟨none, { (m.Up st).state with ledgerExists := true }, []⟩ := hall
    _ = ⟨none, (m.Up st).state, []⟩ := by rw [hsteq _ hexT]

/-- Witness for C3: the second `Up` after the successful concrete run is
a no-op. -/
theorem claim3_up_idempotent_witness :
    mGood.Up ((mGood.Up st0).state) = ⟨none, (mGood.Up st0).state, []⟩ :=
  claim3_up_idempotent mGood st0 (by decide)

/-- C4: `Down` on an empty ledger is a successful no-op that invokes no
backward action and changes nothing; `Down` whose most recent ledger row
matches no registered step fails with the not-found error, again
invoking nothing and changing nothing. -/
theorem claim4_down_empty_and_orphan (m : Migrator σ) (st : DBState σ) :
    (st.ledger = [] → m.Down st = ⟨none, st, []⟩) ∧
    (∀ last : Migration, latestMigration st.ledger = some last →
      (∀ s ∈ m.migrations, s.Version ≠ last.version) →
      m.Down st =
        ⟨some ("migration step not found for version: " ++ last.version), st, []⟩) := by
  constructor
  · intro h
    exact down_nil h
  · intro last hl hno
    have hf : m.migrations.find? (fun s => s.Version == last.version) = none := by
      rw [List.find?_eq_none]
      intro s hs
      simpa using hno s hs
    exact down_orphan hl hf

/-- Witness for C4: both the empty-ledger no-op and the orphaned-row
error on concrete states. -/
theorem claim4_down_empty_and_orphan_witness :
    mGood.Down st0 = ⟨none, st0, []⟩ ∧
    mGood.Down stOrphan =
      ⟨some ("migration step not found for version: " ++ "999"), stOrphan, []⟩ := by
  constructor
  · exact (claim4_down_empty_and_orphan mGood st0).1 rfl
  · exact (claim4_down_empty_and_orphan mGood stOrphan).2
      ⟨1, "999", "orphan", 5⟩ (by decide) (by decide)

/-- C5: when the most recent ledger row matches a registered step, a
successful `Down` invokes exactly that step's backward action once and
deletes exactly that row (all other rows survive); a failing backward
action leaves the whole state unchanged (one transaction); and right
after a successful `Up` from an empty ledger the most recent row is the
last-registered step's. -/
theorem claim5_down_last_step (m : Migrator σ) (st : DBState σ) :
    (∀ (last : Migration) (step : MigrationStep σ) (s : σ),
      latestMigration st.ledger = some last →
      m.migrations.find? (fun s2 => s2.Version == last.version) = some step →
      step.Down st.store = Except.ok s →
      m.Down st = ⟨none,
        { st with
          store := s
          ledger := st.ledger.eraseP (fun r => r.id == last.id) },
        [last.version]⟩) ∧
    (∀ (last : Migration) (step : MigrationStep σ) (e : String),
      latestMigration st.ledger = some last →
      m.migrations.find? (fun s2 => s2.Version == last.version) = some step →
      step.Down st.store = Except.error e →
      m.Down st = ⟨some ("failed to roll back migration " ++ step.Version ++ ": " ++
        ("failed to execute rollback for migration " ++ step.Version ++ ": " ++ e)),
        st, [last.version]⟩) ∧
    ((st.ledger.map (fun r => r.id)).Nodup →
      ∀ last : Migration, latestMigration st.ledger = some last →
        (st.ledger.eraseP (fun r => r.id == last.id)).length + 1 = st.ledger.length ∧
        (∀ r ∈ st.ledger, r.id ≠ last.id →
          r ∈ st.ledger.eraseP (fun r2 => r2.id == last.id))) ∧
    (st.ledger = [] → (m.Up st).err = none →
      (latestMigration (m.Up st).state.ledger).map (fun r => r.version) =
        (m.migrations.getLast?).map (fun s => s.Version)) := by
  refine ⟨?_, ?_, ?_, ?_⟩
  · intro last step s hl hf hd
    exact down_ok hl hf hd
  · intro last step e hl hf hd
    exact down_fail hl hf hd
  · intro hnd last hl
    have hmem := latestMigration_mem hl
    constructor
    · have h1 := List.length_eraseP_of_mem (p := fun r => r.id == last.id) hmem
        (by exact beq_self_eq_true last.id)
      have h2 := List.length_pos_of_mem hmem
      omega
    · intro r hr hne
      exact (List.mem_eraseP_of_neg (by simp [hne])).mpr hr
  · intro hemp hup
    have hup2 : (upLoop (st.ledger.map (fun r => r.version)) m.migrations
        { st with ledgerExists := true }).err = none := hup
    obtain ⟨-, hledg0, -, -, -⟩ := upLoop_ok hup2
    have hledg : (m.Up st).state.ledger = newRecords m.migrations st.nextId st.now := by
      have h1 : (m.Up st).state.ledger = st.ledger ++
          newRecords (pendingSteps (st.ledger.map (fun r => r.version)) m.migrations)
            st.nextId st.now := hledg0
      have hem : st.ledger.map (fun r => r.version) = ([] : List String) := by
        rw [hemp]
        rfl
      rw [h1, hem, pendingSteps_nil, hemp, List.nil_append]
    rw [hledg, latestMigration_sorted (newRecords_pairwise m.migrations st.nextId st.now),
      newRecords_getLast_version]

/-- Witness for C5: on the state right after the concrete `Up`, `Down`
invokes exactly the last-registered step's backward action. -/
theorem claim5_down_last_step_witness :
    (mGood.Down ((mGood.Up st0).state)).trace = ["002"] := by
  have h := (claim5_down_last_step mGood ((mGood.Up st0).state)).1
    ⟨2, "002", "desc 002", 11⟩ (stepOk "002") 1 (by decide) rfl rfl
  rw [h]

/-- C6: `Status` reports no error, leaves the state untouched, and lists
one entry per registered step in registration order, carrying the step's
version and description, `Pending` exactly when no ledger row has the
step's version, and an `Executed` timestamp only as recorded in the
ledger. -/
theorem claim6_status_read_only (m : Migrator σ) (st : DBState σ) :
    (m.Status st).err = none ∧
    (m.Status st).state = st ∧
    (m.Status st).report.length = m.migrations.length ∧
    (∀ (i : Nat) (s : MigrationStep σ), m.migrations[i]? = some s →
      ∃ entry : StatusEntry, (m.Status st).report[i]? = some entry ∧
        entry.version = s.Version ∧
        entry.description = s.Description ∧
        (entry.status = StepStatus.Pending ↔ ∀ r ∈ st.ledger, r.version ≠ s.Version) ∧
        (∀ t : Nat, entry.status = StepStatus.Executed t →
          ∃ r ∈ st.ledger, r.version = s.Version ∧ r.executedAt = t)) := by
  refine ⟨rfl, rfl, ?_, ?_⟩
  · show (statusReport m st.ledger).length = m.migrations.length
    unfold statusReport
    rw [List.length_map]
  · intro i s hs
    show ∃ entry : StatusEntry, (statusReport m st.ledger)[i]? = some entry ∧ _
    unfold statusReport
    rw [List.getElem?_map, hs]
    cases hfind : st.ledger.find? (fun r => r.version == s.Version) with
    | none =>
      refine ⟨⟨s.Version, s.Description, StepStatus.Pending⟩, ?_, rfl, rfl, ?_, ?_⟩
      · simp only [Option.map_some']
        rw [hfind]
      · constructor
        · intro _ r hr
          simpa using List.find?_eq_none.mp hfind r hr
        · intro _
          rfl
      · intro t ht
        exact StepStatus.noConfusion ht
    | some r =>
      refine ⟨⟨s.Version, s.Description, StepStatus.Executed r.executedAt⟩,
        ?_, rfl, rfl, ?_, ?_⟩
      · simp only [Option.map_some']
        rw [hfind]
      · constructor
        · intro hP
          exact StepStatus.noConfusion hP
        · intro hall
          have hver : r.version = s.Version := by simpa using List.find?_some hfind
          exact absurd hver (hall r (List.mem_of_find?_eq_some hfind))
      · intro t ht
        cases ht
        exact ⟨r, List.mem_of_find?_eq_some hfind,
          by simpa using List.find?_some hfind, rfl⟩

/-- Witness for C6: the first report entry of the concrete migrator
carries the first step's version. -/
theorem claim6_status_read_only_witness :
    ∃ entry : StatusEntry, (mGood.Status st0).report[0]? = some entry ∧
      entry.version = "001" := by
  obtain ⟨entry, h1, h2, -⟩ :=
    (claim6_status_read_only mGood st0).2.2.2 0 (stepOk "001") rfl
  exact ⟨entry, h1, h2⟩

/-- Counterexample for C7: the response "Y" is not the literal "y", yet
the CLI reset proceeds (the code lowercases the response first), so the
claim that every response other than the literal "y" aborts is false. -/
theorem claim7_cli_reset_counterexample :
    ("Y" : String) ≠ "y" ∧ cliReset mGood st0 "Y" = some (mGood.Reset st0) := by
  exact ⟨by decide, rfl⟩

/-- C7 (amended): the CLI reset aborts with no state change for every
response whose lowercasing is not "y", and proceeds exactly on "y" and
"Y". -/
theorem claim7_cli_reset_amended (m : Migrator σ) (st : DBState σ) :
    (∀ response : String, lowerString response ≠ "y" →
      cliReset m st response = none) ∧
    cliReset m st "y" = some (m.Reset st) ∧
    cliReset m st "Y" = some (m.Reset st) := by
  refine ⟨?_, rfl, rfl⟩
  intro response h
  have hb : (lowerString response == "y") = false := by
    rw [beq_eq_false_iff_ne]
    exact h
  unfold cliReset confirmReset
  rw [hb]
  simp

/-- Witness for C7 (amended): the response "n" aborts the reset. -/
theorem claim7_cli_reset_amended_witness :
    cliReset mGood st0 "n" = none :=
  (claim7_cli_reset_amended mGood st0).1 "n" (by decide)

/-- C8: every engine operation preserves the invariant that the set of
ledger versions is a subset of the registered versions, and an orphaned
latest row makes `Down` fail without touching the state (it is detected,
not silently ignored). -/
theorem claim8_ledger_subset_invariant (m : Migrator σ) (st : DBState σ)
    (h : LedgerSubset m st) :
    LedgerSubset m (m.Up st).state ∧
    LedgerSubset m (m.Down st).state ∧
    (m.Status st).state = st ∧
    LedgerSubset m (m.Reset st).state ∧
    (∀ last : Migration, latestMigration st.ledger = some last →
      (∀ s ∈ m.migrations, s.Version ≠ last.version) →
      (m.Down st).err ≠ none ∧ (m.Down st).state = st) := by
  refine ⟨up_preserves_subset h, ?_, rfl, ?_, ?_⟩
  · intro v hv
    exact h v (((down_ledger_sublist m st).map (fun r => r.version)).subset hv)
  · have hsub : LedgerSubset m
        { st with ledgerExists := false, ledger := ([] : List Migration), nextId := 1 } := by
      intro v hv
      have hv2 : v ∈ ([] : List Migration).map (fun r => r.version) := hv
      simp at hv2
    exact up_preserves_subset hsub
  · intro last hl hno
    have hf : m.migrations.find? (fun s => s.Version == last.version) = none := by
      rw [List.find?_eq_none]
      intro s hs
      simpa using hno s hs
    rw [down_orphan hl hf]
    exact ⟨by simp, rfl⟩

/-- Witness for C8: the invariant instantiated on the concrete empty
state. -/
theorem claim8_ledger_subset_invariant_witness :
    (mGood.Status st0).state = st0 := by
  have hsub : LedgerSubset mGood st0 := by
    intro v hv
    have hv2 : v ∈ ([] : List Migration).map (fun r => r.version) := hv
    simp at hv2
  exact (claim8_ledger_subset_invariant mGood st0 hsub).2.2.1

/-- C9: `Reset` ignores whatever was in the ledger (and only the
ledger): it drops the ledger table — leaving the store untouched — and
then behaves exactly as `Up` on an empty ledger, so a successful `Reset`
re-runs every registered forward action in registration order. -/
theorem claim9_reset_drop_then_up (m : Migrator σ) (st : DBState σ) :
    (∀ (b : Bool) (L : List Migration) (n : Nat),
      m.Reset { st with ledgerExists := b, ledger := L, nextId := n } = m.Reset st) ∧
    ({ st with ledgerExists := false, ledger := ([] : List Migration), nextId := 1 } :
      DBState σ).store = st.store ∧
    m.Reset st =
      m.Up { st with ledgerExists := false, ledger := ([] : List Migration), nextId := 1 } ∧
    ((m.Reset st).err = none →
      (m.Reset st).trace = m.migrations.map (fun s => s.Version)) := by
  refine ⟨?_, rfl, rfl, ?_⟩
  · intro b L n
    rfl
  · intro h
    have h2 : (upLoop (List.map (fun (r : Migration) => r.version) ([] : List Migration))
        m.migrations { st with ledgerExists := true, ledger := [], nextId := 1 }).err =
          none := h
    obtain ⟨htr, -, -, -, -⟩ := upLoop_ok h2
    have htr2 : (m.Reset st).trace =
        pendingVersions (List.map (fun (r : Migration) => r.version)
          ([] : List Migration)) m.migrations := htr
    rw [htr2]
    have hnil : List.map (fun (r : Migration) => r.version) ([] : List Migration) =
        ([] : List String) := rfl
    rw [hnil, pendingVersions_nil]

/-- Witness for C9: the concrete `Reset` re-runs both steps in order. -/
theorem claim9_reset_drop_then_up_witness :
    (mGood.Reset st0).trace = ["001", "002"] := by
  have h := (claim9_reset_drop_then_up mGood st0).2.2.2 (by decide)
  rw [h]
  rfl

/-- C10 (code bug): on a store that already contains the seeded admin
user (email "admin@company.com") and no user whose email is the literal
"admin", the forward action of `003_seed_admin_user` does not detect the
existing user — its check counts rows with `email = models.RoleAdmin`,
i.e. email "admin" — so it re-attempts the insert and fails on the
unique email constraint instead of succeeding without a new row. -/
theorem claim10_seed_admin_rerun_bug :
    (seededStore.users.filter (fun u => u.email == RoleAdmin)).length = 0 ∧
    (seededStore.users.any (fun u => u.email == "admin@company.com")) = true ∧
    migration003Up seededStore =
      Except.error "duplicate key value violates unique constraint on users email" := by
  refine ⟨by decide, by decide, rfl⟩

end MigrationEngine
